import Mathlib

/-!
Verification of the whenami slot-computation engine
(`src/whenami/utils/calendar.py`).

Time model: Python `datetime` instants in a fixed-offset zone (the concrete
scenarios are all UTC) are embedded as naturals counting microseconds since
an epoch midnight; `timedelta` values are naturals counting microseconds.
Python's aware-datetime field surgery is embedded exactly:
`replace(hour=h, minute=m, second=0)` zeroes the seconds but KEEPS the
microsecond field, while `datetime.combine(date, t)` rebuilds the instant
from scratch.  Configured times of day come from `strptime('%H:%M')` and are
embedded as minutes past midnight.

`merge_busy_periods` operates on the Google-API dicts, whose `start`/`end`
are ISO-8601 strings sharing one format per query, so Python's string
comparison coincides with chronological order; we embed those keys as
naturals as well.
-/

namespace Whenami

/-- Microseconds in one day. -/
def dayUs : Nat := 86400000000

/-- Microseconds in one minute. -/
def minuteUs : Nat := 60000000

/-- The `TimeSlot` dataclass of calendar.py. -/
structure TimeSlot where
  start : Nat
  end_ : Nat
  is_busy : Bool := false
  event_name : Option String := none
deriving DecidableEq

/-- TimeSlot.duration: `self.end - self.start`. -/
def TimeSlot.duration (s : TimeSlot) : Nat := s.end_ - s.start

/-- Weekday of the day containing instant `t` (Monday = 0); day 0 of the
epoch is anchored to a Thursday (1970-01-01), as in Python's `date.weekday`. -/
def weekday (t : Nat) : Nat := (t / dayUs + 3) % 7

/-- is_workday: `date.weekday() < 5`. -/
def is_workday (t : Nat) : Bool := weekday t < 5

/-- `current.replace(hour=h, minute=m, second=0)` for a configured time of
day `m` (in minutes): seconds are zeroed but the microsecond field of
`current` is preserved. -/
def replaceHM (t : Nat) (m : Nat) : Nat :=
  t / dayUs * dayUs + m * minuteUs + t % 1000000

/-- `current.replace(hour=0, minute=0, second=0) + timedelta(days=1)`:
the microsecond field again survives. -/
def nextDayKeepMicro (t : Nat) : Nat :=
  t / dayUs * dayUs + t % 1000000 + dayUs

/-- The configuration and argument flags consulted by filter_time_hours:
the selected hour profile (work or personal), the optional mid-day break,
`args.work_days` and `args.all_hours`. -/
structure FilterConfig where
  timeStartMin : Nat
  timeEndMin : Nat
  brk : Option (Nat × Nat)
  workDays : Bool
  allHours : Bool

/-- One iteration of the day-by-day loop of filter_time_hours: the pieces
appended to `filtered_slots` for the day containing `current`. -/
def dayPieces (cfg : FilterConfig) (slot : TimeSlot) (current : Nat) : List TimeSlot :=
  if !cfg.workDays || is_workday current then
    let day_start := replaceHM current cfg.timeStartMin
    let day_end := replaceHM current cfg.timeEndMin
    let slot_start := max current day_start
    let slot_end := min slot.end_ day_end
    match cfg.brk with
    | some (bs, be) =>
      if slot_start < slot_end then
        let break_start_dt := replaceHM current bs
        let break_end_dt := replaceHM current be
        (if slot_start < break_start_dt then
          [⟨slot_start, min slot_end break_start_dt, slot.is_busy, slot.event_name⟩]
         else []) ++
        (if slot_end > break_end_dt then
          [⟨max slot_start break_end_dt, slot_end, slot.is_busy, slot.event_name⟩]
         else [])
      else []
    | none =>
      if slot_start < slot_end then [⟨slot_start, slot_end, slot.is_busy, slot.event_name⟩]
      else []
  else []

/-- The `while current < slot.end` loop of filter_time_hours, with explicit
fuel; each pass handles one calendar day and steps to the next local
midnight (microseconds preserved). -/
def filterSlotLoop (cfg : FilterConfig) (slot : TimeSlot) : Nat → Nat → List TimeSlot
  | 0, _ => []
  | fuel + 1, current =>
    if current < slot.end_ then
      dayPieces cfg slot current ++ filterSlotLoop cfg slot fuel (nextDayKeepMicro current)
    else []

/-- Fuel sufficient for the day loop: one pass per calendar day touched,
plus one. -/
def filterFuel (slot : TimeSlot) : Nat := slot.end_ / dayUs + 2 - slot.start / dayUs

/-- filter_time_hours: with `--all-hours` the slots pass unchanged,
otherwise every slot is walked day by day and clipped or split. -/
def filter_time_hours (cfg : FilterConfig) (slots : List TimeSlot) : List TimeSlot :=
  if cfg.allHours then slots
  else slots.flatMap fun slot => filterSlotLoop cfg slot (filterFuel slot) slot.start

/-- `datetime.combine(current.date(), datetime.max.time())`: the last
representable microsecond 23:59:59.999999 of the day containing `t`. -/
def endOfDay (t : Nat) : Nat := t / dayUs * dayUs + (dayUs - 1)

/-- The `while current.date() <= slot.end.date()` loop of
get_adjusted_duration, with explicit fuel.  The break bounds are rebuilt
each day with `datetime.combine`, hence exact; the next iteration starts at
the exact next midnight. -/
def adjLoop (bs be slotEnd : Nat) : Nat → Nat → Nat
  | 0, _ => 0
  | fuel + 1, current =>
    if current / dayUs ≤ slotEnd / dayUs then
      let day_end := min slotEnd (endOfDay current)
      let contrib :=
        if current < day_end then
          let break_start := current / dayUs * dayUs + bs * minuteUs
          let break_end := current / dayUs * dayUs + be * minuteUs
          if current < break_end ∧ day_end > break_start then
            (if current < break_start then min break_start day_end - current else 0) +
            (if day_end > break_end then day_end - max break_end current else 0)
          else day_end - current
        else 0
      contrib + adjLoop bs be slotEnd fuel (current / dayUs * dayUs + dayUs)
    else 0

/-- get_adjusted_duration: the slot's elapsed span when no break is
configured, otherwise the day-by-day walk subtracting break overlap. -/
def get_adjusted_duration (slot : TimeSlot) (brk : Option (Nat × Nat)) : Nat :=
  match brk with
  | none => slot.duration
  | some (bs, be) =>
    adjLoop bs be slot.end_ (slot.end_ / dayUs + 1 - slot.start / dayUs) slot.start

/-- The cursor loop of organize_slots.  parse_datetime converts the API's
ISO strings to instants without changing them; busy periods are embedded
already parsed. -/
def organizeLoop (end_date : Nat) : Nat → List (Nat × Nat × Option String) → List TimeSlot
  | current_time, [] =>
    if current_time < end_date then [⟨current_time, end_date, false, none⟩] else []
  | current_time, (s, e, name) :: rest =>
    (if current_time < s then [⟨current_time, s, false, none⟩] else []) ++
    ⟨s, e, true, name⟩ :: organizeLoop end_date e rest

/-- organize_slots: free/busy reconstruction over `[start_date, end_date)`. -/
def organize_slots (busy_times : List (Nat × Nat × Option String))
    (start_date end_date : Nat) : List TimeSlot :=
  organizeLoop end_date start_date busy_times

/-- The busy-period dicts consumed by merge_busy_periods. -/
structure BusyPeriod where
  start : Nat
  end_ : Nat
  summary : Option String
deriving DecidableEq

/-- Python truthiness of `period.get('summary')`: absent (None) and the
empty string are falsy. -/
def truthySummary : Option String → Bool
  | none => false
  | some s => s ≠ ""

/-- The label-combination rule of the merge loop. -/
def combineSummary (a b : Option String) : Option String :=
  if truthySummary a && truthySummary b then some (a.getD "" ++ " / " ++ b.getD "")
  else if truthySummary b then b
  else a

/-- In-place update of `merged[-1]` when an overlapping period is absorbed. -/
def combinePeriod (last p : BusyPeriod) : BusyPeriod :=
  { last with end_ := max last.end_ p.end_, summary := combineSummary last.summary p.summary }

/-- One pass of the merge scan: start a new entry only when the current
merged period's end is strictly below the next period's start. -/
def mergeStep (merged : List BusyPeriod) (p : BusyPeriod) : List BusyPeriod :=
  match merged.getLast? with
  | none => merged ++ [p]
  | some last =>
    if last.end_ < p.start then merged ++ [p]
    else merged.dropLast ++ [combinePeriod last p]

/-- merge_busy_periods: concatenate all sources, sort (stably) by start,
scan once merging overlaps. -/
def merge_busy_periods (busy_periods_list : List (List BusyPeriod)) : List BusyPeriod :=
  ((busy_periods_list.flatten).mergeSort fun a b => decide (a.start ≤ b.start)).foldl
    mergeStep []

/-- Tagged merge scan, modelling Python reference semantics: the scan stores
references to the input dicts and mutates `merged[-1]` in place, so each
entry here carries the index (in the concatenated input) of the record it
aliases; a record whose tag never appears is never written to. -/
def mergeStepTagged (merged : List (Nat × BusyPeriod)) (p : Nat × BusyPeriod) :
    List (Nat × BusyPeriod) :=
  match merged.getLast? with
  | none => merged ++ [p]
  | some last =>
    if last.2.end_ < p.2.start then merged ++ [p]
    else merged.dropLast ++ [(last.1, combinePeriod last.2 p.2)]

/-- merge_busy_periods with identity tracking: the final value of the input
record with index `t` is the entry tagged `t` when one exists (the record
was the head of a merged group and possibly mutated), and its original
value otherwise. -/
def merge_tagged (busy_periods_list : List (List BusyPeriod)) : List (Nat × BusyPeriod) :=
  ((busy_periods_list.flatten).enum.mergeSort fun a b => decide (a.2.start ≤ b.2.start)).foldl
    mergeStepTagged []

/-- The accumulator of the display loop of display_slots. -/
structure DisplayState where
  free_slots : List TimeSlot
  busy_slots : List TimeSlot
  total_free : Nat
  total_busy : Nat
deriving DecidableEq

/-- One pass of the display loop: busy slots always contribute their
adjusted duration; free slots are kept only when the adjusted duration
reaches the configured minimum (inclusive comparison). -/
def displayStep (brk : Option (Nat × Nat)) (minMinutes : Nat) (showFree showBusy : Bool)
    (st : DisplayState) (slot : TimeSlot) : DisplayState :=
  let duration := get_adjusted_duration slot brk
  if slot.is_busy then
    { st with total_busy := st.total_busy + duration,
              busy_slots := if showBusy then st.busy_slots ++ [slot] else st.busy_slots }
  else if minMinutes * minuteUs ≤ duration then
    { st with total_free := st.total_free + duration,
              free_slots := if showFree then st.free_slots ++ [slot] else st.free_slots }
  else st

/-- The accounting part of display_slots (rendering elided). -/
def display_totals (slots : List TimeSlot) (brk : Option (Nat × Nat)) (minMinutes : Nat)
    (showFree showBusy : Bool) : DisplayState :=
  slots.foldl (displayStep brk minMinutes showFree showBusy) ⟨[], [], 0, 0⟩

/-- Each element of a list repeated twice in place; `l ++ l` sorted stably
by pairwise-distinct keys rearranges to exactly this. -/
def dupList {α : Type} : List α → List α
  | [] => []
  | a :: l => a :: a :: dupList l

/-- Helper: when the concatenated input is already sorted by start, the
stable sort is the identity and merge_busy_periods is the plain scan. -/
theorem merge_busy_periods_eq_scan (ls : List (List BusyPeriod))
    (h : List.Pairwise (fun a b : BusyPeriod => a.start ≤ b.start) ls.flatten) :
    merge_busy_periods ls = ls.flatten.foldl mergeStep [] := by
  unfold merge_busy_periods
  congr 1
  apply List.mergeSort_of_sorted
  exact h.imp fun hab => by simpa using hab

/-- Helper: the tagged scan on an already-sorted concatenation. -/
theorem merge_tagged_eq_scan (ls : List (List BusyPeriod))
    (h : List.Pairwise (fun a b : Nat × BusyPeriod => a.2.start ≤ b.2.start)
      ls.flatten.enum) :
    merge_tagged ls = ls.flatten.enum.foldl mergeStepTagged [] := by
  unfold merge_tagged
  congr 1
  apply List.mergeSort_of_sorted
  exact h.imp fun hab => by simpa using hab

/-! Claim C1.  The scenario is UTC with dayStart 09:00 (540 min), dayEnd
17:00 (1020 min) and break 12:00 to 13:00 (720 and 780 min); the slot
[11:30, 13:30) on day 0 spans microseconds 41400000000 to 48600000000.
The filter half of the claim holds, but the break is a full hour inside the
slot, so the adjusted duration is 1 hour (3600000000 us), not 1 hour 30
minutes (5400000000 us). -/

/-- Claim C1, counterexample: activeDuration on the unfiltered slot
[11:30, 13:30) with break 12:00 to 13:00 is not 1 hour 30 minutes. -/
theorem claim_C1_counterexample :
    get_adjusted_duration ⟨41400000000, 48600000000, false, none⟩ (some (720, 780)) ≠
      5400000000 := by decide

/-- Claim C1 (corrected): filtering the slot [11:30, 13:30) against the
09:00 to 17:00 window with break 12:00 to 13:00 yields exactly the pieces
[11:30, 12:00) and [13:00, 13:30), and activeDuration of the original
unfiltered slot with that break is exactly 1 hour. -/
theorem claim_C1 :
    filter_time_hours ⟨540, 1020, some (720, 780), false, false⟩
        [⟨41400000000, 48600000000, false, none⟩] =
      [⟨41400000000, 43200000000, false, none⟩, ⟨46800000000, 48600000000, false, none⟩] ∧
    get_adjusted_duration ⟨41400000000, 48600000000, false, none⟩ (some (720, 780)) =
      3600000000 := by
  exact ⟨by decide, by decide⟩

/-! Claim C2.  The scan's guard is `merged[-1]['end'] < period['start']`
(strict), so touching periods with end equal to start fall into the else
branch and ARE merged into one entry; only a strict gap starts a new entry.
The claim asserts the opposite. -/

/-- Claim C2, counterexample: the touching periods [0, 10) and [10, 20) are
merged into the single entry [0, 20), not kept as two output entries. -/
theorem claim_C2_counterexample :
    merge_busy_periods [[⟨0, 10, none⟩, ⟨10, 20, none⟩]] = [⟨0, 20, none⟩] ∧
    (merge_busy_periods [[⟨0, 10, none⟩, ⟨10, 20, none⟩]]).length ≠ 2 := by
  rw [merge_busy_periods_eq_scan _ (by decide)]
  exact ⟨by decide, by decide⟩

/-- Claim C2 (corrected): whenever the current merged period's end exactly
equals the next period's start, the scan merges the next period into the
current entry (combining end and label) instead of appending a new entry;
a new entry is started only when end is strictly below the next start. -/
theorem claim_C2_amended (merged : List BusyPeriod) (last p : BusyPeriod)
    (hlast : merged.getLast? = some last) (heq : last.end_ = p.start) :
    mergeStep merged p = merged.dropLast ++ [combinePeriod last p] := by
  simp only [mergeStep, hlast]
  rw [if_neg]
  omega

/-- Claim C2, witness for the corrected statement at periods [0, 10) and
[10, 20). -/
theorem claim_C2_amended_witness :
    ([⟨0, 10, none⟩] : List BusyPeriod).getLast? = some ⟨0, 10, none⟩ ∧
    (⟨0, 10, none⟩ : BusyPeriod).end_ = (⟨10, 20, none⟩ : BusyPeriod).start ∧
    mergeStep [⟨0, 10, none⟩] ⟨10, 20, none⟩ =
      ([⟨0, 10, none⟩] : List BusyPeriod).dropLast ++
        [combinePeriod ⟨0, 10, none⟩ ⟨10, 20, none⟩] :=
  ⟨by decide, by decide,
    claim_C2_amended [⟨0, 10, none⟩] ⟨0, 10, none⟩ ⟨10, 20, none⟩ (by decide) (by decide)⟩

/-! Claim C8.  `merged.append(period)` stores a reference to the input
dict, and `merged[-1]['end'] = ...` then mutates that dict in place, so a
source record that heads a merged group is modified whenever a later
overlapping period is absorbed into it. -/

/-- Claim C8, counterexample: merging the single source
[{0, 5}, {3, 10}] leaves the first input record (tag 0) holding end 10
instead of its original end 5 - the call mutates its input. -/
theorem claim_C8_counterexample :
    merge_tagged [[⟨0, 5, none⟩, ⟨3, 10, none⟩]] = [(0, ⟨0, 10, none⟩)] ∧
    ([[⟨0, 5, none⟩, ⟨3, 10, none⟩]] : List (List BusyPeriod)).flatten[0]? =
      some ⟨0, 5, none⟩ ∧
    (⟨0, 10, none⟩ : BusyPeriod) ≠ ⟨0, 5, none⟩ := by
  rw [merge_tagged_eq_scan _ (by decide)]
  exact ⟨by decide, by decide, by decide⟩

/-! Claim C5.  The sort is stable with ties broken by concatenation order,
so two sources holding periods with the same start produce labels combined
in different orders depending on source order.  With pairwise-distinct
starts the sorted lists coincide and the outputs are identical. -/

/-- Claim C5, counterexample: with tied starts the source order leaks into
the combined label (`a / b` versus `b / a`), so merge is not commutative
over source order as stated. -/
theorem claim_C5_counterexample :
    merge_busy_periods [[⟨0, 10, some "a"⟩], [⟨0, 5, some "b"⟩]] ≠
      merge_busy_periods [[⟨0, 5, some "b"⟩], [⟨0, 10, some "a"⟩]] := by
  rw [merge_busy_periods_eq_scan _ (by decide), merge_busy_periods_eq_scan _ (by decide)]
  decide

/-- Helper: with pairwise-distinct starts, the merge sort output is
strictly sorted by start. -/
theorem mergeSort_pairwise_lt (l : List BusyPeriod)
    (hnd : l.Pairwise fun p q => p.start ≠ q.start) :
    (l.mergeSort fun a b => decide (a.start ≤ b.start)).Pairwise
      fun p q => p.start < q.start := by
  have hle : (l.mergeSort fun a b => decide (a.start ≤ b.start)).Pairwise
      (fun a b : BusyPeriod => decide (a.start ≤ b.start) = true) :=
    @List.sorted_mergeSort BusyPeriod (fun a b => decide (a.start ≤ b.start))
      (fun a b c h1 h2 =>
        decide_eq_true (Nat.le_trans (of_decide_eq_true h1) (of_decide_eq_true h2)))
      (fun a b => by
        rcases Nat.le_total a.start b.start with h | h <;> simp [h]) l
  have hnd' : (l.mergeSort fun a b => decide (a.start ≤ b.start)).Pairwise
      fun p q : BusyPeriod => p.start ≠ q.start :=
    (List.Perm.pairwise_iff (fun h => h.symm) (List.mergeSort_perm l _)).mpr hnd
  exact (hle.and hnd').imp fun h => by
    have h1 := of_decide_eq_true h.1
    have h2 := h.2
    omega

/-- Claim C5 (corrected): merge over swapped source order gives identical
output (same spans, labels, order) provided no two periods across the two
sources share a start value; with tied starts only the label combination
order can differ. -/
theorem claim_C5_amended (A B : List BusyPeriod)
    (hnd : (A ++ B).Pairwise fun p q => p.start ≠ q.start) :
    merge_busy_periods [A, B] = merge_busy_periods [B, A] := by
  have hanti : IsAntisymm BusyPeriod fun p q => p.start < q.start :=
    ⟨fun a b h1 h2 => (Nat.lt_asymm h1 h2).elim⟩
  have hnd2 : (B ++ A).Pairwise fun p q => p.start ≠ q.start :=
    (List.Perm.pairwise_iff (fun h => h.symm) List.perm_append_comm).mp hnd
  have hsorteq :
      ((A ++ B).mergeSort fun a b => decide (a.start ≤ b.start)) =
        ((B ++ A).mergeSort fun a b => decide (a.start ≤ b.start)) := by
    refine List.eq_of_perm_of_sorted
      ((List.mergeSort_perm _ _).trans
        (List.perm_append_comm.trans (List.mergeSort_perm _ _).symm))
      (mergeSort_pairwise_lt _ hnd) (mergeSort_pairwise_lt _ hnd2)
  unfold merge_busy_periods
  simp only [List.flatten_cons, List.flatten_nil, List.append_nil]
  rw [hsorteq]

/-- Claim C5, witness for the corrected statement: two sources with
distinct starts merge identically in either order. -/
theorem claim_C5_amended_witness :
    (([⟨0, 5, some "a"⟩] ++ [⟨10, 20, some "b"⟩] : List BusyPeriod).Pairwise
      fun p q => p.start ≠ q.start) ∧
    merge_busy_periods [[⟨0, 5, some "a"⟩], [⟨10, 20, some "b"⟩]] =
      merge_busy_periods [[⟨10, 20, some "b"⟩], [⟨0, 5, some "a"⟩]] :=
  ⟨by decide, claim_C5_amended [⟨0, 5, some "a"⟩] [⟨10, 20, some "b"⟩] (by decide)⟩

/-! Claim C4.  Merging an already-merged list with itself preserves every
span, but an entry carrying a (truthy) label X comes back labelled
"X / X", because the label-combination rule fires when the duplicate is
absorbed.  So idempotence holds for spans, and for labels only when they
are absent. -/

/-- Membership in a duplicated list is membership in the original. -/
theorem mem_dupList {α : Type} (x : α) : ∀ l : List α, x ∈ dupList l ↔ x ∈ l
  | [] => Iff.rfl
  | a :: l => by
    simp only [dupList, List.mem_cons, mem_dupList x l]
    tauto

/-- A list appended to itself is a permutation of its duplication. -/
theorem perm_append_dupList {α : Type} : ∀ l : List α, List.Perm (l ++ l) (dupList l)
  | [] => List.Perm.refl _
  | a :: l => by
    simp only [List.cons_append, dupList]
    exact ((List.perm_middle.trans ((perm_append_dupList l).cons a)).cons a)

/-- Chain-separated periods with ordered endpoints are pairwise separated. -/
theorem pairwise_sep_of_chain :
    ∀ L : List BusyPeriod, (∀ p ∈ L, p.start ≤ p.end_) →
      List.Chain' (fun a b => a.end_ < b.start) L →
      L.Pairwise fun a b => a.end_ < b.start
  | [], _, _ => List.Pairwise.nil
  | a :: t, hse, hch => by
    obtain ⟨hhead, hcht⟩ := List.chain'_cons'.mp hch
    have ih := pairwise_sep_of_chain t (fun p hp => hse p (List.mem_cons_of_mem a hp)) hcht
    refine List.pairwise_cons.mpr ⟨?_, ih⟩
    intro b hb
    cases t with
    | nil => cases hb
    | cons h t' =>
      rcases List.mem_cons.mp hb with rfl | hb'
      · exact hhead b rfl
      · have h1 : a.end_ < h.start := hhead h rfl
        have h2 : h.start ≤ h.end_ := hse h (by simp)
        have h3 : h.end_ < b.start := (List.pairwise_cons.mp ih).1 b hb'
        omega

/-- Pairwise-separated periods have strictly increasing starts. -/
theorem pairwise_start_lt (L : List BusyPeriod) (hse : ∀ p ∈ L, p.start ≤ p.end_)
    (hch : List.Chain' (fun a b => a.end_ < b.start) L) :
    L.Pairwise fun a b => a.start < b.start := by
  refine (pairwise_sep_of_chain L hse hch).imp_of_mem ?_
  intro a b ha hb hr
  have := hse a ha
  omega

/-- In a list with strictly increasing starts, equal starts force equal
elements. -/
theorem eq_of_start_eq (L : List BusyPeriod)
    (hlt : L.Pairwise fun a b => a.start < b.start) :
    ∀ x ∈ L, ∀ y ∈ L, x.start = y.start → x = y := by
  induction L with
  | nil => intro x hx; cases hx
  | cons a t ih =>
    intro x hx y hy hxy
    obtain ⟨ha, ht⟩ := List.pairwise_cons.mp hlt
    rcases List.mem_cons.mp hx with rfl | hx' <;> rcases List.mem_cons.mp hy with rfl | hy'
    · rfl
    · exact absurd hxy (by have := ha y hy'; omega)
    · exact absurd hxy (by have := ha x hx'; omega)
    · exact ih ht x hx' y hy' hxy

/-- Sorting the self-concatenation of a separated merged list just
duplicates each entry in place. -/
theorem mergeSort_append_self (L : List BusyPeriod)
    (hse : ∀ p ∈ L, p.start ≤ p.end_)
    (hch : List.Chain' (fun a b => a.end_ < b.start) L) :
    ((L ++ L).mergeSort fun a b => decide (a.start ≤ b.start)) = dupList L := by
  have hlt := pairwise_start_lt L hse hch
  have hkey : ∀ x ∈ L ++ L, ∀ y ∈ L ++ L, x.start = y.start → x = y := by
    intro x hx y hy
    exact eq_of_start_eq L hlt x (by simpa using List.mem_append.mp hx)
      y (by simpa using List.mem_append.mp hy)
  have hanti : IsAntisymm BusyPeriod fun p q => p.start < q.start ∨ p = q := by
    constructor
    intro a b h1 h2
    rcases h1 with h1 | h1
    · rcases h2 with h2 | h2
      · exact absurd h1 (by omega)
      · exact h2.symm
    · exact h1
  have hle : ((L ++ L).mergeSort fun a b => decide (a.start ≤ b.start)).Pairwise
      (fun a b : BusyPeriod => decide (a.start ≤ b.start) = true) :=
    @List.sorted_mergeSort BusyPeriod (fun a b => decide (a.start ≤ b.start))
      (fun a b c h1 h2 =>
        decide_eq_true (Nat.le_trans (of_decide_eq_true h1) (of_decide_eq_true h2)))
      (fun a b => by
        rcases Nat.le_total a.start b.start with h | h <;> simp [h]) (L ++ L)
  have hs1 : ((L ++ L).mergeSort fun a b => decide (a.start ≤ b.start)).Pairwise
      fun p q : BusyPeriod => p.start < q.start ∨ p = q := by
    refine hle.imp_of_mem ?_
    intro a b ha hb hr
    have hr' := of_decide_eq_true hr
    have ha' := (List.mem_mergeSort).mp ha
    have hb' := (List.mem_mergeSort).mp hb
    rcases Nat.lt_or_ge a.start b.start with h | h
    · exact Or.inl h
    · exact Or.inr (hkey a ha' b hb' (by omega))
  have hs2 : (dupList L).Pairwise fun p q : BusyPeriod => p.start < q.start ∨ p = q := by
    clear hs1 hle hkey hch hse
    induction L with
    | nil => exact List.Pairwise.nil
    | cons a t ih =>
      obtain ⟨ha, ht⟩ := List.pairwise_cons.mp hlt
      have harel : ∀ b ∈ dupList t, a.start < b.start ∨ a = b :=
        fun b hb => Or.inl (ha b ((mem_dupList b t).mp hb))
      exact List.pairwise_cons.mpr ⟨fun b hb => by
          rcases List.mem_cons.mp hb with rfl | hb'
          · exact Or.inr rfl
          · exact harel b hb',
        List.pairwise_cons.mpr ⟨harel, ih ht⟩⟩
  exact List.eq_of_perm_of_sorted
    ((List.mergeSort_perm _ _).trans (perm_append_dupList L)) hs1 hs2

/-- The scan step appends when the accumulator's last entry ends strictly
before the incoming period starts. -/
theorem mergeStep_append (acc : List BusyPeriod) (p : BusyPeriod)
    (h : ∀ last ∈ acc.getLast?, last.end_ < p.start) :
    mergeStep acc p = acc ++ [p] := by
  unfold mergeStep
  cases hl : acc.getLast? with
  | none => rfl
  | some last => exact if_pos (h last (by simp [hl]))

/-- Scanning a duplicated separated list self-combines each entry. -/
theorem foldl_mergeStep_dupList :
    ∀ (L : List BusyPeriod) (acc : List BusyPeriod),
      (∀ p ∈ L, p.start ≤ p.end_) →
      List.Chain' (fun a b => a.end_ < b.start) L →
      (∀ last ∈ acc.getLast?, ∀ h ∈ L.head?, last.end_ < h.start) →
      List.foldl mergeStep acc (dupList L) = acc ++ L.map fun p => combinePeriod p p
  | [], acc, _, _, _ => by simp [dupList]
  | a :: t, acc, hse, hch, hbound => by
    obtain ⟨hhead, hcht⟩ := List.chain'_cons'.mp hch
    have hae : a.start ≤ a.end_ := hse a (by simp)
    have step1 : mergeStep acc a = acc ++ [a] :=
      mergeStep_append acc a fun last hl => hbound last hl a rfl
    have step2 : mergeStep (acc ++ [a]) a = acc ++ [combinePeriod a a] := by
      simp only [mergeStep, List.getLast?_concat]
      rw [if_neg (by omega)]
      rw [List.dropLast_concat]
    have ih := foldl_mergeStep_dupList t (acc ++ [combinePeriod a a])
      (fun p hp => hse p (List.mem_cons_of_mem a hp)) hcht
      (by
        intro last hl h hh
        rw [List.getLast?_concat] at hl
        have hl' : combinePeriod a a = last := by simpa using hl
        subst hl'
        have : a.end_ < h.start := hhead h hh
        simp only [combinePeriod, Nat.max_self]
        exact this)
    simp only [dupList, List.foldl_cons, step1, step2, ih, List.map_cons]
    simp [List.append_assoc]

/-- Claim C4, counterexample: for the merged list L = [{0, 10, "A"}]
(itself an output of the merger), merging [L, L] yields label "A / A",
not L again. -/
theorem claim_C4_counterexample :
    merge_busy_periods [merge_busy_periods [[⟨0, 10, some "A"⟩]],
        merge_busy_periods [[⟨0, 10, some "A"⟩]]] ≠
      merge_busy_periods [[⟨0, 10, some "A"⟩]] := by
  have h1 : merge_busy_periods [[⟨0, 10, some "A"⟩]] = [⟨0, 10, some "A"⟩] := by
    rw [merge_busy_periods_eq_scan _ (by decide)]
    decide
  rw [h1, merge_busy_periods_eq_scan _ (by decide)]
  decide

/-- Claim C4 (corrected): for a merged list L (separated entries with
ordered endpoints), merging the two sources [L, L] reproduces every span
in order, but each entry comes back self-combined: its label is unchanged
when absent or empty and becomes "X / X" when a nonempty label X is
present.  Exact idempotence therefore holds precisely for label-free
entries. -/
theorem claim_C4_amended (L : List BusyPeriod)
    (hse : ∀ p ∈ L, p.start ≤ p.end_)
    (hch : List.Chain' (fun a b => a.end_ < b.start) L) :
    merge_busy_periods [L, L] = L.map fun p => combinePeriod p p := by
  unfold merge_busy_periods
  simp only [List.flatten_cons, List.flatten_nil, List.append_nil]
  rw [mergeSort_append_self L hse hch]
  exact foldl_mergeStep_dupList L [] hse hch (by simp)

/-- Claim C4, witness for the corrected statement: a labelled and an
unlabelled entry; the labelled one returns as "x / x", the unlabelled one
unchanged. -/
theorem claim_C4_amended_witness :
    (∀ p ∈ ([⟨0, 5, some "x"⟩, ⟨8, 12, none⟩] : List BusyPeriod), p.start ≤ p.end_) ∧
    List.Chain' (fun a b => a.end_ < b.start)
      ([⟨0, 5, some "x"⟩, ⟨8, 12, none⟩] : List BusyPeriod) ∧
    merge_busy_periods [[⟨0, 5, some "x"⟩, ⟨8, 12, none⟩],
        [⟨0, 5, some "x"⟩, ⟨8, 12, none⟩]] =
      ([⟨0, 5, some "x"⟩, ⟨8, 12, none⟩] : List BusyPeriod).map fun p =>
        combinePeriod p p :=
  ⟨by decide, by simp [List.chain'_cons],
    claim_C4_amended [⟨0, 5, some "x"⟩, ⟨8, 12, none⟩] (by decide)
      (by simp [List.chain'_cons])⟩

/-- The tagged scan step also just appends under strict separation. -/
theorem mergeStepTagged_append (acc : List (Nat × BusyPeriod)) (p : Nat × BusyPeriod)
    (h : ∀ last ∈ acc.getLast?, last.2.end_ < p.2.start) :
    mergeStepTagged acc p = acc ++ [p] := by
  unfold mergeStepTagged
  cases hl : acc.getLast? with
  | none => rfl
  | some last => exact if_pos (h last (by simp [hl]))

/-- Under strict separation the whole tagged scan is the identity: no
entry is ever combined, hence no record is ever written to. -/
theorem foldl_mergeStepTagged_sep :
    ∀ (l : List (Nat × BusyPeriod)) (acc : List (Nat × BusyPeriod)),
      List.Chain' (fun a b => a.2.end_ < b.2.start) l →
      (∀ last ∈ acc.getLast?, ∀ h ∈ l.head?, last.2.end_ < h.2.start) →
      List.foldl mergeStepTagged acc l = acc ++ l
  | [], acc, _, _ => by simp
  | x :: t, acc, hch, hbound => by
    obtain ⟨hhead, hcht⟩ := List.chain'_cons'.mp hch
    have step1 : mergeStepTagged acc x = acc ++ [x] :=
      mergeStepTagged_append acc x fun last hl => hbound last hl x rfl
    have ih := foldl_mergeStepTagged_sep t (acc ++ [x]) hcht
      (by
        intro last hl h hh
        rw [List.getLast?_concat] at hl
        have hx : x = last := by simpa using hl
        subst hx
        exact hhead h hh)
    simp only [List.foldl_cons, step1, ih]
    simp [List.append_assoc]

/-- Claim C8 (corrected): merge does mutate its input in general (the
record heading a merged group is updated in place when a later overlapping
period is absorbed), but when the sorted concatenated periods are pairwise
strictly separated no merging occurs and every record in every source list
keeps its original start, end and label. -/
theorem claim_C8_amended (sources : List (List BusyPeriod))
    (hsep : List.Chain' (fun a b => a.2.end_ < b.2.start)
      (sources.flatten.enum.mergeSort fun a b => decide (a.2.start ≤ b.2.start))) :
    ∀ tp ∈ merge_tagged sources, sources.flatten[tp.1]? = some tp.2 := by
  intro tp hmem
  unfold merge_tagged at hmem
  rw [foldl_mergeStepTagged_sep _ [] hsep (by simp)] at hmem
  simp only [List.nil_append] at hmem
  have hmem' : tp ∈ sources.flatten.enum :=
    ((List.mergeSort_perm _ _).mem_iff).mp hmem
  obtain ⟨i, x⟩ := tp
  have henum : (i, x) ∈ sources.flatten.enumFrom 0 := hmem'
  have := (List.mk_mem_enumFrom_iff_le_and_getElem?_sub.mp henum).2
  simpa using this

/-- Claim C8, witness for the corrected statement: two strictly separated
periods from one source survive the call unchanged. -/
theorem claim_C8_amended_witness :
    List.Chain' (fun a b => a.2.end_ < b.2.start)
      ((([[⟨0, 5, none⟩, ⟨7, 10, none⟩]] : List (List BusyPeriod)).flatten.enum).mergeSort
        fun a b => decide (a.2.start ≤ b.2.start)) ∧
    ∀ tp ∈ merge_tagged [[⟨0, 5, none⟩, ⟨7, 10, none⟩]],
      ([[⟨0, 5, none⟩, ⟨7, 10, none⟩]] : List (List BusyPeriod)).flatten[tp.1]? =
        some tp.2 :=
  ⟨by
    rw [List.mergeSort_of_sorted (by decide)]
    rw [show ([[⟨0, 5, none⟩, ⟨7, 10, none⟩]] :
        List (List BusyPeriod)).flatten.enum =
      [(0, ⟨0, 5, none⟩), (1, ⟨7, 10, none⟩)] from rfl]
    simp [List.chain'_cons],
    claim_C8_amended [[⟨0, 5, none⟩, ⟨7, 10, none⟩]]
      (by
        rw [List.mergeSort_of_sorted (by decide)]
        rw [show ([[⟨0, 5, none⟩, ⟨7, 10, none⟩]] :
            List (List BusyPeriod)).flatten.enum =
          [(0, ⟨0, 5, none⟩), (1, ⟨7, 10, none⟩)] from rfl]
        simp [List.chain'_cons])⟩

/-! Claim C3.  organize_slots walks the merged busy list with a cursor and
emits an alternating free/busy sequence; for sorted, non-overlapping
periods inside the window the slots partition it exactly. -/

/-- Invariant of the organize cursor loop: starting the loop at cursor `c`
with sorted non-overlapping periods bounded by the window yields a
non-empty abutting slot sequence from `c` to `end_date` whose durations
telescope. -/
theorem organizeLoop_spec (ed : Nat) :
    ∀ (L : List (Nat × Nat × Option String)) (c : Nat),
      (∀ p ∈ L, p.1 < p.2.1 ∧ p.2.1 ≤ ed) →
      List.Chain' (fun a b => a.2.1 ≤ b.1) L →
      (∀ p ∈ L.head?, c ≤ p.1) →
      (c < ed ∨ L ≠ []) →
      ((organizeLoop ed c L).map TimeSlot.start).head? = some c ∧
      ((organizeLoop ed c L).map TimeSlot.end_).getLast? = some ed ∧
      List.Chain' (fun a b => a.end_ = b.start) (organizeLoop ed c L) ∧
      ((organizeLoop ed c L).map TimeSlot.duration).sum + c = ed
  | [], c, _, _, _, hne => by
    have hce : c < ed := by
      rcases hne with h | h
      · exact h
      · exact absurd rfl h
    simp [organizeLoop, hce, TimeSlot.duration]
    omega
  | (s, e, nm) :: rest, c, hv, hch, hhead, _ => by
    have hs : c ≤ s := hhead (s, e, nm) rfl
    obtain ⟨hse, heed⟩ := hv (s, e, nm) (by simp)
    have hse' : s < e := hse
    have heed' : e ≤ ed := heed
    clear hse heed
    obtain ⟨hh, hcht⟩ := List.chain'_cons'.mp hch
    by_cases hrec : e < ed ∨ rest ≠ []
    · obtain ⟨ih1, ih2, ih3, ih4⟩ :=
        organizeLoop_spec ed rest e (fun p hp => hv p (by simp [hp])) hcht hh hrec
      obtain ⟨y, hy, hystart⟩ :
          ∃ y, (organizeLoop ed e rest).head? = some y ∧ y.start = e := by
        rcases ho : (organizeLoop ed e rest).head? with _ | y
        · rw [List.head?_map, ho] at ih1
          simp at ih1
        · rw [List.head?_map, ho] at ih1
          simp at ih1
          exact ⟨y, rfl, ih1⟩
      have htne : organizeLoop ed e rest ≠ [] := by
        intro h
        rw [h] at hy
        cases hy
      refine ⟨?_, ?_, ?_, ?_⟩
      · by_cases hcs : c < s <;> simp [organizeLoop, hcs]
        omega
      · rw [show organizeLoop ed c ((s, e, nm) :: rest) =
          ((if c < s then [⟨c, s, false, none⟩] else []) ++ [⟨s, e, true, nm⟩]) ++
            organizeLoop ed e rest by simp [organizeLoop]]
        rw [List.map_append, List.getLast?_append, ih2]
        rfl
      · by_cases hcs : c < s <;>
          simp only [organizeLoop, hcs, if_pos, if_neg, List.nil_append,
            List.cons_append, not_true, not_false_iff]
        · exact List.chain'_cons.mpr ⟨rfl,
            List.chain'_cons'.mpr ⟨fun z hz => by
              rw [hy] at hz
              cases hz
              exact hystart.symm, ih3⟩⟩
        · exact List.chain'_cons'.mpr ⟨fun z hz => by
            rw [hy] at hz
            cases hz
            exact hystart.symm, ih3⟩
      · by_cases hcs : c < s <;> simp [organizeLoop, hcs, TimeSlot.duration] <;> omega
    · rw [not_or] at hrec
      obtain ⟨hed', hrn⟩ := hrec
      have hrn : rest = [] := by
        by_cases h : rest = []
        · exact h
        · exact absurd h hrn
      have hed : e = ed := by omega
      subst hrn
      subst hed
      refine ⟨?_, ?_, ?_, ?_⟩
      · by_cases hcs : c < s <;> simp [organizeLoop, hcs]
        omega
      · by_cases hcs : c < s <;> simp [organizeLoop, hcs]
      · by_cases hcs : c < s <;> simp [organizeLoop, hcs, List.chain'_cons]
      · by_cases hcs : c < s <;> simp [organizeLoop, hcs, TimeSlot.duration] <;> omega

/-- Claim C3 (confirmed): for every sorted non-overlapping busy-period
list lying within [windowStart, windowEnd), the organized slots partition
the window exactly: the first slot starts at windowStart, the last ends at
windowEnd, consecutive slots abut, and the durations sum to the window
length. -/
theorem claim_C3 (busy_times : List (Nat × Nat × Option String)) (sd ed : Nat)
    (hwin : sd < ed)
    (hv : ∀ p ∈ busy_times, sd ≤ p.1 ∧ p.1 < p.2.1 ∧ p.2.1 ≤ ed)
    (hch : List.Chain' (fun a b => a.2.1 ≤ b.1) busy_times) :
    ((organize_slots busy_times sd ed).map TimeSlot.start).head? = some sd ∧
    ((organize_slots busy_times sd ed).map TimeSlot.end_).getLast? = some ed ∧
    List.Chain' (fun a b => a.end_ = b.start) (organize_slots busy_times sd ed) ∧
    ((organize_slots busy_times sd ed).map TimeSlot.duration).sum = ed - sd := by
  obtain ⟨h1, h2, h3, h4⟩ := organizeLoop_spec ed busy_times sd
    (fun p hp => (hv p hp).2)
    hch
    (fun p hp => (hv p (List.mem_of_mem_head? hp)).1)
    (Or.inl hwin)
  have h4' : ((organize_slots busy_times sd ed).map TimeSlot.duration).sum + sd = ed := h4
  exact ⟨h1, h2, h3, by omega⟩

/-- Claim C3, witness: one busy period [2, 4) inside the window [0, 10). -/
theorem claim_C3_witness :
    (0 : Nat) < 10 ∧
    (∀ p ∈ ([(2, 4, none)] : List (Nat × Nat × Option String)),
      0 ≤ p.1 ∧ p.1 < p.2.1 ∧ p.2.1 ≤ 10) ∧
    List.Chain' (fun a b => a.2.1 ≤ b.1) ([(2, 4, none)] : List (Nat × Nat × Option String)) ∧
    (((organize_slots [(2, 4, none)] 0 10).map TimeSlot.start).head? = some 0 ∧
     ((organize_slots [(2, 4, none)] 0 10).map TimeSlot.end_).getLast? = some 10 ∧
     List.Chain' (fun a b => a.end_ = b.start) (organize_slots [(2, 4, none)] 0 10) ∧
     ((organize_slots [(2, 4, none)] 0 10).map TimeSlot.duration).sum = 10 - 0) :=
  ⟨by decide, by decide, by simp [List.chain'_cons],
    claim_C3 [(2, 4, none)] 0 10 (by decide) (by decide) (by simp [List.chain'_cons])⟩

/-! Claim C7.  A slot lying entirely inside the configured break of its own
day is discarded whole by the filter (neither a pre-break nor a post-break
piece is emitted) and contributes a zero adjusted duration. -/

/-- Once the cursor has passed the slot's end the filter day loop emits
nothing, whatever fuel remains. -/
theorem filterSlotLoop_stop (cfg : FilterConfig) (slot : TimeSlot) (fuel current : Nat)
    (h : ¬ current < slot.end_) : filterSlotLoop cfg slot fuel current = [] := by
  cases fuel with
  | zero => rfl
  | succ n => simp [filterSlotLoop, h]

/-- A day pass over a slot contained in that day's break emits no pieces. -/
theorem dayPieces_inside_break (so eo : Nat) (w : Bool) (bs be : Nat) (slot : TimeSlot)
    (h1 : slot.start / dayUs * dayUs + bs * minuteUs ≤ slot.start)
    (h2 : slot.end_ ≤ slot.start / dayUs * dayUs + be * minuteUs) :
    dayPieces ⟨so, eo, some (bs, be), w, false⟩ slot slot.start = [] := by
  unfold dayPieces
  cases hw : !w || is_workday slot.start with
  | false => simp
  | true =>
    simp only [if_pos rfl]
    have hA : ¬ max slot.start (replaceHM slot.start so) < replaceHM slot.start bs := by
      simp only [replaceHM, dayUs, minuteUs] at *
      omega
    have hB : ¬ min slot.end_ (replaceHM slot.start eo) > replaceHM slot.start be := by
      simp only [replaceHM, dayUs, minuteUs] at *
      omega
    by_cases hss : max slot.start (replaceHM slot.start so) <
        min slot.end_ (replaceHM slot.start eo)
    · simp only [if_pos hss, if_neg hA, if_neg hB]
      simp
    · simp only [if_neg hss]
      simp

/-- Claim C7 (confirmed): a slot whose span lies entirely within its own
day's configured break interval produces zero output pieces from the
filter, and its adjusted duration with that break configured is zero. -/
theorem claim_C7 (slot : TimeSlot) (so eo : Nat) (w : Bool) (bs be : Nat)
    (hbe : be < 1440)
    (h1 : slot.start / dayUs * dayUs + bs * minuteUs ≤ slot.start)
    (h2 : slot.end_ ≤ slot.start / dayUs * dayUs + be * minuteUs)
    (h3 : slot.start < slot.end_) :
    filter_time_hours ⟨so, eo, some (bs, be), w, false⟩ [slot] = [] ∧
    get_adjusted_duration slot (some (bs, be)) = 0 := by
  have hbeD : be * minuteUs < dayUs := by
    simp only [minuteUs, dayUs]
    omega
  have hdlow : slot.start / dayUs * dayUs ≤ slot.start := Nat.div_mul_le_self _ _
  have hend_lt : slot.end_ < slot.start / dayUs * dayUs + dayUs := by omega
  have hd : slot.end_ / dayUs = slot.start / dayUs := by
    simp only [dayUs] at *
    omega
  constructor
  · have hfuel : filterFuel slot = 2 := by
      unfold filterFuel
      omega
    have hflat : filter_time_hours ⟨so, eo, some (bs, be), w, false⟩ [slot] =
        filterSlotLoop ⟨so, eo, some (bs, be), w, false⟩ slot (filterFuel slot)
          slot.start ++ [] := rfl
    rw [hflat, hfuel]
    have hloop2 : filterSlotLoop ⟨so, eo, some (bs, be), w, false⟩ slot 2 slot.start =
        if slot.start < slot.end_ then
          dayPieces ⟨so, eo, some (bs, be), w, false⟩ slot slot.start ++
            filterSlotLoop ⟨so, eo, some (bs, be), w, false⟩ slot 1
              (nextDayKeepMicro slot.start)
        else [] := rfl
    rw [hloop2, if_pos h3, dayPieces_inside_break so eo w bs be slot h1 h2]
    rw [filterSlotLoop_stop _ _ _ _ (by
      unfold nextDayKeepMicro
      simp only [dayUs] at *
      omega)]
    rfl
  · have hfuel1 : slot.end_ / dayUs + 1 - slot.start / dayUs = 1 := by omega
    have hadj : get_adjusted_duration slot (some (bs, be)) =
        adjLoop bs be slot.end_ (slot.end_ / dayUs + 1 - slot.start / dayUs)
          slot.start := rfl
    rw [hadj, hfuel1]
    have hloop : adjLoop bs be slot.end_ 1 slot.start =
        if slot.start / dayUs ≤ slot.end_ / dayUs then
          (if slot.start < min slot.end_ (endOfDay slot.start) then
            (if slot.start < slot.start / dayUs * dayUs + be * minuteUs ∧
                min slot.end_ (endOfDay slot.start) >
                  slot.start / dayUs * dayUs + bs * minuteUs then
              (if slot.start < slot.start / dayUs * dayUs + bs * minuteUs then
                min (slot.start / dayUs * dayUs + bs * minuteUs)
                  (min slot.end_ (endOfDay slot.start)) - slot.start
              else 0) +
              (if min slot.end_ (endOfDay slot.start) >
                  slot.start / dayUs * dayUs + be * minuteUs then
                min slot.end_ (endOfDay slot.start) -
                  max (slot.start / dayUs * dayUs + be * minuteUs) slot.start
              else 0)
            else min slot.end_ (endOfDay slot.start) - slot.start)
          else 0) + adjLoop bs be slot.end_ 0 (slot.start / dayUs * dayUs + dayUs)
        else 0 := rfl
    rw [hloop]
    have hmin : min slot.end_ (endOfDay slot.start) = slot.end_ := by
      unfold endOfDay
      simp only [dayUs, minuteUs] at *
      omega
    rw [hmin, if_pos (by omega), if_pos h3]
    rw [if_pos (by constructor <;> omega)]
    rw [if_neg (by omega), if_neg (by omega)]
    rfl

/-- Claim C7, witness: the slot [12:10, 12:50) of day 0 inside the break
12:00 to 13:00. -/
theorem claim_C7_witness :
    (780 : Nat) < 1440 ∧
    (43800000000 : Nat) / dayUs * dayUs + 720 * minuteUs ≤ 43800000000 ∧
    (46200000000 : Nat) ≤ 43800000000 / dayUs * dayUs + 780 * minuteUs ∧
    (43800000000 : Nat) < 46200000000 ∧
    (filter_time_hours ⟨540, 1020, some (720, 780), false, false⟩
        [⟨43800000000, 46200000000, false, none⟩] = [] ∧
      get_adjusted_duration ⟨43800000000, 46200000000, false, none⟩ (some (720, 780)) = 0) :=
  ⟨by decide, by decide, by decide, by decide,
    claim_C7 ⟨43800000000, 46200000000, false, none⟩ 540 1020 false 720 780
      (by decide) (by decide) (by decide) (by decide)⟩

/-! Claim C6.  The day bounds are built with
`current.replace(hour=.., minute=.., second=0)`, which keeps the
microsecond field of `current`.  A slot starting on a fraction of a second
therefore shifts every computed bound by that fraction, and an emitted
piece can end strictly after the configured dayEnd.  With whole-second
(zero-microsecond) slot starts - which the real pipeline always produces -
every piece lies inside the anchored window. -/

/-- Claim C6, counterexample: dayStart 09:00, dayEnd 17:00, no break; the
slot starting at 16:59:59.500000 yields the piece
[16:59:59.500000, 17:00:00.500000), which fits no day's configured
[09:00, 17:00] window. -/
theorem claim_C6_counterexample :
    filter_time_hours ⟨540, 1020, none, false, false⟩
        [⟨61199500000, 64800000000, false, none⟩] =
      [⟨61199500000, 61200500000, false, none⟩] ∧
    ¬ ∃ d : Nat, d * dayUs + 540 * minuteUs ≤ 61199500000 ∧
        (61200500000 : Nat) ≤ d * dayUs + 1020 * minuteUs := by
  constructor
  · decide
  · rintro ⟨d, hd1, hd2⟩
    simp only [dayUs, minuteUs] at hd1 hd2
    omega

/-- Every piece emitted for one day of a zero-microsecond cursor lies
within that day's configured hour window. -/
theorem dayPieces_in_window (cfg : FilterConfig) (slot : TimeSlot) (current : Nat)
    (hm : current % 1000000 = 0) :
    ∀ p ∈ dayPieces cfg slot current,
      current / dayUs * dayUs + cfg.timeStartMin * minuteUs ≤ p.start ∧
      p.end_ ≤ current / dayUs * dayUs + cfg.timeEndMin * minuteUs := by
  have hrep : ∀ m, replaceHM current m =
      current / dayUs * dayUs + m * minuteUs := by
    intro m
    unfold replaceHM
    rw [hm]
    rw [Nat.add_zero]
  intro p hp
  simp only [dayPieces] at hp
  by_cases hw : (!cfg.workDays || is_workday current) = true
  · rw [if_pos hw] at hp
    have hds : current / dayUs * dayUs + cfg.timeStartMin * minuteUs =
        replaceHM current cfg.timeStartMin := (hrep _).symm
    have hde : current / dayUs * dayUs + cfg.timeEndMin * minuteUs =
        replaceHM current cfg.timeEndMin := (hrep _).symm
    rw [hds, hde]
    cases hbrk : cfg.brk with
    | none =>
      simp only [hbrk] at hp
      by_cases hss : max current (replaceHM current cfg.timeStartMin) <
          min slot.end_ (replaceHM current cfg.timeEndMin)
      · rw [if_pos hss] at hp
        rcases List.mem_singleton.mp hp with rfl
        exact ⟨Nat.le_max_right _ _, Nat.min_le_right _ _⟩
      · rw [if_neg hss] at hp
        cases hp
    | some bsbe =>
      obtain ⟨bs, be⟩ := bsbe
      simp only [hbrk] at hp
      by_cases hss : max current (replaceHM current cfg.timeStartMin) <
          min slot.end_ (replaceHM current cfg.timeEndMin)
      · rw [if_pos hss] at hp
        rcases List.mem_append.mp hp with h | h
        · by_cases hA : max current (replaceHM current cfg.timeStartMin) <
              replaceHM current bs
          · rw [if_pos hA] at h
            rcases List.mem_singleton.mp h with rfl
            refine ⟨Nat.le_max_right _ _, ?_⟩
            exact Nat.le_trans (Nat.min_le_left _ _) (Nat.min_le_right _ _)
          · rw [if_neg hA] at h
            cases h
        · by_cases hB : min slot.end_ (replaceHM current cfg.timeEndMin) >
              replaceHM current be
          · rw [if_pos hB] at h
            rcases List.mem_singleton.mp h with rfl
            refine ⟨Nat.le_trans (Nat.le_max_right _ _) (Nat.le_max_left _ _), ?_⟩
            exact Nat.min_le_right _ _
          · rw [if_neg hB] at h
            cases h
      · rw [if_neg hss] at hp
        cases hp
  · rw [if_neg hw] at hp
    cases hp

/-- Any piece emitted by the filter day loop from a zero-microsecond
cursor lies within some day's configured hour window, whatever the fuel. -/
theorem filterSlotLoop_in_window (cfg : FilterConfig) (slot : TimeSlot) :
    ∀ (fuel current : Nat), current % 1000000 = 0 →
      ∀ p ∈ filterSlotLoop cfg slot fuel current,
        ∃ d : Nat, d * dayUs + cfg.timeStartMin * minuteUs ≤ p.start ∧
          p.end_ ≤ d * dayUs + cfg.timeEndMin * minuteUs
  | 0, current, _, p, hp => absurd hp (by simp [filterSlotLoop])
  | fuel + 1, current, hm, p, hp => by
    rw [filterSlotLoop] at hp
    by_cases hlt : current < slot.end_
    · rw [if_pos hlt] at hp
      rcases List.mem_append.mp hp with h | h
      · obtain ⟨hb1, hb2⟩ := dayPieces_in_window cfg slot current hm p h
        exact ⟨current / dayUs, hb1, hb2⟩
      · have hm' : nextDayKeepMicro current % 1000000 = 0 := by
          simp only [nextDayKeepMicro, dayUs]
          omega
        exact filterSlotLoop_in_window cfg slot fuel (nextDayKeepMicro current) hm' p h
    · rw [if_neg hlt] at hp
      cases hp

/-- Claim C6 (corrected): with filtering enabled, provided every input
slot starts on a whole second (zero microseconds, as organize_slots always
produces), every emitted piece lies entirely within the configured hour
window anchored to some single calendar day.  Without that proviso the
microsecond field of the slot start leaks into the computed bounds and the
property fails. -/
theorem claim_C6_amended (cfg : FilterConfig) (slots : List TimeSlot)
    (hall : cfg.allHours = false)
    (hm : ∀ s ∈ slots, s.start % 1000000 = 0) :
    ∀ p ∈ filter_time_hours cfg slots,
      ∃ d : Nat, d * dayUs + cfg.timeStartMin * minuteUs ≤ p.start ∧
        p.end_ ≤ d * dayUs + cfg.timeEndMin * minuteUs := by
  intro p hp
  unfold filter_time_hours at hp
  rw [hall] at hp
  simp only [Bool.false_eq_true, if_false] at hp
  rcases List.mem_flatMap.mp hp with ⟨s, hs, hps⟩
  exact filterSlotLoop_in_window cfg s (filterFuel s) s.start (hm s hs) p hps

/-- Claim C6, witness for the corrected statement: the whole-second slot
[10:00, 11:00) under the 09:00 to 17:00 window. -/
theorem claim_C6_amended_witness :
    (⟨540, 1020, none, false, false⟩ : FilterConfig).allHours = false ∧
    (∀ s ∈ ([⟨36000000000, 39600000000, false, none⟩] : List TimeSlot),
      s.start % 1000000 = 0) ∧
    ∀ p ∈ filter_time_hours ⟨540, 1020, none, false, false⟩
        [⟨36000000000, 39600000000, false, none⟩],
      ∃ d : Nat, d * dayUs + 540 * minuteUs ≤ p.start ∧
        p.end_ ≤ d * dayUs + 1020 * minuteUs :=
  ⟨rfl, by decide,
    claim_C6_amended ⟨540, 1020, none, false, false⟩
      [⟨36000000000, 39600000000, false, none⟩] rfl (by decide)⟩

/-! Claim C9.  In the display loop a busy slot always adds its adjusted
duration to the busy total, while a free slot is counted and shown exactly
when its adjusted duration is at least the configured minimum (inclusive
comparison `>=`). -/

/-- Characterization of the display fold from an arbitrary initial
accumulator. -/
theorem displayFold_spec (brk : Option (Nat × Nat)) (minMinutes : Nat)
    (showFree showBusy : Bool) :
    ∀ (slots : List TimeSlot) (st : DisplayState),
      List.foldl (displayStep brk minMinutes showFree showBusy) st slots =
        ⟨st.free_slots ++ (if showFree then
            slots.filter fun s => !s.is_busy &&
              decide (minMinutes * minuteUs ≤ get_adjusted_duration s brk) else []),
         st.busy_slots ++ (if showBusy then slots.filter fun s => s.is_busy else []),
         st.total_free + ((slots.filter fun s => !s.is_busy &&
            decide (minMinutes * minuteUs ≤ get_adjusted_duration s brk)).map
              fun s => get_adjusted_duration s brk).sum,
         st.total_busy + ((slots.filter fun s => s.is_busy).map
              fun s => get_adjusted_duration s brk).sum⟩
  | [], st => by simp
  | s :: rest, st => by
    rw [List.foldl_cons,
      displayFold_spec brk minMinutes showFree showBusy rest
        (displayStep brk minMinutes showFree showBusy st s)]
    cases hb : s.is_busy with
    | true =>
      by_cases hsb : showBusy = true
      · simp [displayStep, hb, hsb, List.filter_cons, List.append_assoc, Nat.add_assoc]
      · simp [displayStep, hb, hsb, List.filter_cons, List.append_assoc, Nat.add_assoc]
    | false =>
      by_cases hmin : minMinutes * minuteUs ≤ get_adjusted_duration s brk
      · by_cases hsf : showFree = true
        · simp [displayStep, hb, hmin, hsf, List.filter_cons, List.append_assoc, Nat.add_assoc]
        · simp [displayStep, hb, hmin, hsf, List.filter_cons, List.append_assoc, Nat.add_assoc]
      · simp [displayStep, hb, hmin, List.filter_cons]

/-- Claim C9 (confirmed): the busy total sums the adjusted duration of
every busy slot with no minimum-duration filtering, while the free total
and the shown free slots keep exactly the free slots whose adjusted
duration is at least the configured minimum - an inclusive comparison, so
a free slot of exactly the minimum duration is counted and shown. -/
theorem claim_C9 (slots : List TimeSlot) (brk : Option (Nat × Nat)) (minMinutes : Nat)
    (showFree showBusy : Bool) :
    (display_totals slots brk minMinutes showFree showBusy).total_busy =
      ((slots.filter fun s => s.is_busy).map fun s => get_adjusted_duration s brk).sum ∧
    (display_totals slots brk minMinutes showFree showBusy).total_free =
      ((slots.filter fun s => !s.is_busy &&
          decide (minMinutes * minuteUs ≤ get_adjusted_duration s brk)).map
        fun s => get_adjusted_duration s brk).sum ∧
    (display_totals slots brk minMinutes showFree showBusy).busy_slots =
      (if showBusy then slots.filter fun s => s.is_busy else []) ∧
    (display_totals slots brk minMinutes showFree showBusy).free_slots =
      (if showFree then slots.filter fun s => !s.is_busy &&
          decide (minMinutes * minuteUs ≤ get_adjusted_duration s brk) else []) := by
  unfold display_totals
  rw [displayFold_spec]
  simp

/-! Claim C10.  With a break configured, the day walk bounds each day by
23:59:59.999999 and resumes at the next midnight, silently dropping one
microsecond per midnight crossed; a slot disjoint from every day's break
therefore totals its elapsed span minus one microsecond per crossing. -/

/-- Once the cursor's date is past the slot's end date the duration loop
returns zero, whatever fuel remains. -/
theorem adjLoop_stop (bs be slotEnd fuel current : Nat)
    (h : ¬ current / dayUs ≤ slotEnd / dayUs) :
    adjLoop bs be slotEnd fuel current = 0 := by
  cases fuel with
  | zero => rfl
  | succ n => simp [adjLoop, h]

/-- Quantitative invariant of the duration walk for a slot disjoint from
every day's break: each remaining midnight costs exactly one microsecond. -/
theorem adjLoop_spec (bs be slotStart slotEnd : Nat) (hbs : bs < 1440)
    (hdisj : ∀ k, slotStart / dayUs ≤ k → k ≤ slotEnd / dayUs →
      slotEnd ≤ k * dayUs + bs * minuteUs ∨ k * dayUs + be * minuteUs ≤ slotStart) :
    ∀ (fuel current : Nat),
      slotStart ≤ current → current ≤ slotEnd →
      slotEnd / dayUs + 1 - current / dayUs ≤ fuel →
      adjLoop bs be slotEnd fuel current + (slotEnd / dayUs - current / dayUs) =
        slotEnd - current
  | 0, current, hsc, hce, hfuel => by
    exfalso
    have := Nat.div_le_div_right (c := dayUs) hce
    omega
  | fuel + 1, current, hsc, hce, hfuel => by
    have hdle : current / dayUs ≤ slotEnd / dayUs := Nat.div_le_div_right hce
    have hkd := hdisj (current / dayUs) (Nat.div_le_div_right hsc) hdle
    simp only [adjLoop, if_pos hdle]
    by_cases hsame : current / dayUs = slotEnd / dayUs
    · have hmin : min slotEnd (endOfDay current) = slotEnd := by
        simp only [endOfDay, dayUs] at *
        omega
      rw [hmin]
      have hstop : adjLoop bs be slotEnd fuel (current / dayUs * dayUs + dayUs) = 0 := by
        apply adjLoop_stop
        have : (current / dayUs * dayUs + dayUs) / dayUs = current / dayUs + 1 := by
          simp only [dayUs]
          omega
        omega
      by_cases hlt : current < slotEnd
      · rw [if_pos hlt]
        have hnb : ¬ (current < current / dayUs * dayUs + be * minuteUs ∧
            slotEnd > current / dayUs * dayUs + bs * minuteUs) := by
          rcases hkd with h | h
          · rintro ⟨h1', h2'⟩
            omega
          · rintro ⟨h1', h2'⟩
            omega
        rw [if_neg hnb, hstop]
        omega
      · rw [if_neg hlt, hstop]
        omega
    · have hlt2 : current / dayUs < slotEnd / dayUs := by omega
      have hmin : min slotEnd (endOfDay current) = endOfDay current := by
        simp only [endOfDay, dayUs] at *
        omega
      rw [hmin]
      have hnext1 : slotStart ≤ current / dayUs * dayUs + dayUs := by
        simp only [dayUs] at *
        omega
      have hnext2 : current / dayUs * dayUs + dayUs ≤ slotEnd := by
        simp only [dayUs] at *
        omega
      have hnextd : (current / dayUs * dayUs + dayUs) / dayUs = current / dayUs + 1 := by
        simp only [dayUs]
        omega
      have hrec := adjLoop_spec bs be slotStart slotEnd hbs hdisj fuel
        (current / dayUs * dayUs + dayUs) hnext1 hnext2 (by omega)
      rw [hnextd] at hrec
      have hnb : ¬ (current < current / dayUs * dayUs + be * minuteUs ∧
          endOfDay current > current / dayUs * dayUs + bs * minuteUs) := by
        rcases hkd with h | h
        · exfalso
          simp only [dayUs, minuteUs] at *
          omega
        · rintro ⟨h1', h2'⟩
          omega
      by_cases hlt : current < endOfDay current
      · rw [if_pos hlt, if_neg hnb]
        simp only [endOfDay, dayUs, minuteUs] at *
        omega
      · rw [if_neg hlt]
        simp only [endOfDay, dayUs, minuteUs] at *
        omega

/-- Claim C10 (confirmed): when a break is configured and the slot is
disjoint from every day's break interval, the returned total plus one
microsecond per midnight crossed (n = end date minus start date, as day
indices) equals the slot's exact elapsed span: the walk loses exactly n
microseconds, one per 23:59:59.999999-to-midnight gap. -/
theorem claim_C10 (slot : TimeSlot) (bs be : Nat) (hbs : bs < 1440)
    (hse : slot.start ≤ slot.end_)
    (hdisj : ∀ k, slot.start / dayUs ≤ k → k ≤ slot.end_ / dayUs →
      slot.end_ ≤ k * dayUs + bs * minuteUs ∨ k * dayUs + be * minuteUs ≤ slot.start) :
    get_adjusted_duration slot (some (bs, be)) +
      (slot.end_ / dayUs - slot.start / dayUs) = slot.end_ - slot.start :=
  adjLoop_spec bs be slot.start slot.end_ hbs hdisj
    (slot.end_ / dayUs + 1 - slot.start / dayUs) slot.start (Nat.le_refl _) hse
    (Nat.le_refl _)

/-- Claim C10, witness: the slot [14:00 day 0, 10:00 day 1) crosses one
midnight and avoids the 12:00 to 13:00 break of both days; its total is
its 20-hour span minus exactly one microsecond. -/
theorem claim_C10_witness :
    (720 : Nat) < 1440 ∧
    (50400000000 : Nat) ≤ 122400000000 ∧
    (∀ k, (50400000000 : Nat) / dayUs ≤ k → k ≤ (122400000000 : Nat) / dayUs →
      (122400000000 : Nat) ≤ k * dayUs + 720 * minuteUs ∨
        k * dayUs + 780 * minuteUs ≤ 50400000000) ∧
    get_adjusted_duration ⟨50400000000, 122400000000, false, none⟩ (some (720, 780)) +
        ((122400000000 : Nat) / dayUs - (50400000000 : Nat) / dayUs) =
      122400000000 - 50400000000 :=
  ⟨by decide, by decide,
    by
      intro k h1 h2
      simp only [dayUs, minuteUs] at *
      omega,
    claim_C10 ⟨50400000000, 122400000000, false, none⟩ 720 780 (by decide) (by decide)
      (by
        intro k h1 h2
        simp only [dayUs, minuteUs] at *
        omega)⟩

end Whenami
